import Mathlib

/-!
Verification of the linear transactional history cell
(`core/utils/historical-data/src/synch/linear/transaction.rs`).

The Rust code is shallowly embedded: `States` (the global transaction-depth
counter, a `usize`) becomes a structure holding a `Nat`; the guarded
decrement `if self.0 > 0 { self.0 -= 1 }` is translated literally, so the
counter can never underflow, mirroring the Rust code's guard.  `History<V>`
(a `Vec` of `(value, State)` entries, oldest first, top of the stack at the
end) becomes a structure holding a `List`, with the Rust `Vec` operations
(`last`, `last_mut`, `push`, `truncate`, `pop`) expressed on the list.
The `debug_assert!` in `History::set` is modelled separately by
`History.set_checked`, which returns `none` exactly when the assertion
would fire in a debug build.
-/

namespace HistoricalData

/-- Rust `State` enum from transaction.rs: a historical entry is either
`Committed` or tagged with the transaction layer index of insertion. -/
inductive State where
  | Committed : State
  | Transaction : Nat → State
deriving DecidableEq, Repr

/-- Rust `State::transaction_index`: the layer index if the state is a
transaction state, `none` for `Committed`. -/
def State.transaction_index : State → Option Nat
  | State.Transaction ix => some ix
  | State.Committed => none

/-- Rust `HistoricalValue<V, State>`: one entry of a history, a value together
with the state it was inserted at. -/
structure HistoricalValue (V : Type) where
  value : V
  index : State
deriving DecidableEq, Repr

/-- Rust `States`: the global state, a simple counter of the current overlay
layer index (`pub struct States(usize)`). -/
structure States where
  val : Nat
deriving DecidableEq, Repr

/-- Rust `States::default`: the counter starts at 0. -/
def States.default : States := ⟨0⟩

/-- Rust `States::discard_prospective`: decrement the counter if positive. -/
def States.discard_prospective (s : States) : States :=
  if s.val > 0 then ⟨s.val - 1⟩ else s

/-- Rust `States::commit_prospective`: decrement the counter if positive. -/
def States.commit_prospective (s : States) : States :=
  if s.val > 0 then ⟨s.val - 1⟩ else s

/-- Rust `States::start_transaction`: increment the counter. -/
def States.start_transaction (s : States) : States := ⟨s.val + 1⟩

/-- Rust `States::discard_transaction`: decrement the counter if positive. -/
def States.discard_transaction (s : States) : States :=
  if s.val > 0 then ⟨s.val - 1⟩ else s

/-- Rust `States::commit_transaction`: decrement the counter if positive. -/
def States.commit_transaction (s : States) : States :=
  if s.val > 0 then ⟨s.val - 1⟩ else s

/-- Rust `History<V>`: a `Vec` of historical values, bottom of the stack at
index 0, top at the end. -/
structure History (V : Type) where
  entries : List (HistoricalValue V)
deriving DecidableEq, Repr

/-- Rust `History::default`: an empty history. -/
def History.default (V : Type) : History V := ⟨[]⟩

/-- Rust `History::set`: if the top entry's state has transaction index equal to
the current counter, overwrite its value in place (its `index` field is
kept, as in the Rust `v.value = value`); otherwise push a new entry tagged
`Transaction(states.0)`. -/
def History.set {V : Type} (h : History V) (states : States) (value : V) :
    History V :=
  match h.entries.getLast? with
  | some v =>
      if v.index.transaction_index = some states.val then
        ⟨h.entries.dropLast ++ [⟨value, v.index⟩]⟩
      else
        ⟨h.entries ++ [⟨value, State.Transaction states.val⟩]⟩
  | none => ⟨h.entries ++ [⟨value, State.Transaction states.val⟩]⟩

/-- The `debug_assert!` guard of `History::set`:
`v.index.transaction_index().unwrap_or(0) <= states.0` for the top entry
(vacuously true when the history is empty). -/
def History.set_allowed {V : Type} (h : History V) (states : States) : Bool :=
  match h.entries.getLast? with
  | some v => v.index.transaction_index.getD 0 ≤ states.val
  | none => true

/-- Rust `History::set` as executed in a debug build: `none` models the panic of
the `debug_assert!`, `some` the normal return. -/
def History.set_checked {V : Type} (h : History V) (states : States)
    (value : V) : Option (History V) :=
  if h.set_allowed states then some (h.set states value) else none

/-- Rust `History::get`: the latest pending value (the top entry's value). -/
def History.get {V : Type} (h : History V) : Option V :=
  h.entries.getLast?.map (fun e => e.value)

/-- Rust `History::into_pending`: pop the top entry and return its value. -/
def History.into_pending {V : Type} (h : History V) : Option V :=
  h.entries.getLast?.map (fun e => e.value)

/-- Rust `History::into_committed`: `truncate(1)` then pop; return the value
only if the popped (bottom) entry is `Committed`. -/
def History.into_committed {V : Type} (h : History V) : Option V :=
  match (h.entries.take 1).getLast? with
  | some ⟨value, State.Committed⟩ => some value
  | some ⟨_, State.Transaction _⟩ => none
  | none => none

/-- Modelled from the spec: `States::apply_discard_transaction` is a stub
(`unimplemented!("TODO History as mut param")`) in the source, so the
reconciliation of a history after a transaction discard follows the spec's
words (§4.2): the entries whose tag belonged to the just-discarded
layer(s) are removed, i.e. top entries tagged `Transaction(n)` with `n`
greater than the new depth are dropped, their values thrown away. -/
def History.apply_discard_transaction {V : Type} (h : History V)
    (states : States) : History V :=
  ⟨(h.entries.reverse.dropWhile (fun e =>
      match e.index with
      | State.Transaction n => decide (states.val < n)
      | State.Committed => false)).reverse⟩

/-- One of the three transaction-layer operations on the counter. -/
inductive StatesOp where
  | start : StatesOp
  | discard : StatesOp
  | commit : StatesOp
deriving DecidableEq, Repr

/-- Apply one counter operation. -/
def StatesOp.apply : StatesOp → States → States
  | StatesOp.start, s => s.start_transaction
  | StatesOp.discard, s => s.discard_transaction
  | StatesOp.commit, s => s.commit_transaction

/-- Run a sequence of counter operations left to right. -/
def runOps : List StatesOp → States → States
  | [], s => s
  | op :: rest, s => runOps rest (op.apply s)

/-- Number of `start_transaction` calls in a sequence. -/
def countOpens : List StatesOp → Nat
  | [] => 0
  | StatesOp.start :: rest => countOpens rest + 1
  | StatesOp.discard :: rest => countOpens rest
  | StatesOp.commit :: rest => countOpens rest

/-- Number of closing calls in a sequence that found the depth positive
(the calls that actually decrement, as opposed to the no-op closes). -/
def effectiveCloses : List StatesOp → States → Nat
  | [], _ => 0
  | StatesOp.start :: rest, s => effectiveCloses rest (StatesOp.start.apply s)
  | StatesOp.discard :: rest, s =>
      (if s.val > 0 then 1 else 0) + effectiveCloses rest (StatesOp.discard.apply s)
  | StatesOp.commit :: rest, s =>
      (if s.val > 0 then 1 else 0) + effectiveCloses rest (StatesOp.commit.apply s)

/-!  Basic unfolding lemmas about `History.set`. -/

theorem set_nil {V : Type} (s : States) (v : V) :
    (History.mk ([] : List (HistoricalValue V))).set s v
      = ⟨[⟨v, State.Transaction s.val⟩]⟩ := rfl

theorem set_concat {V : Type} (l : List (HistoricalValue V))
    (e : HistoricalValue V) (s : States) (v : V) :
    (History.mk (l ++ [e])).set s v =
      if e.index.transaction_index = some s.val then
        ⟨l ++ [⟨v, e.index⟩]⟩
      else
        ⟨(l ++ [e]) ++ [⟨v, State.Transaction s.val⟩]⟩ := by
  unfold History.set
  simp [List.getLast?_concat, List.dropLast_concat]

theorem transaction_index_eq_some {st : State} {n : Nat} :
    st.transaction_index = some n ↔ st = State.Transaction n := by
  cases st <;> simp [State.transaction_index]

theorem take_one_getLast {α : Type} (l : List α) :
    (l.take 1).getLast? = l.head? := by
  cases l <;> simp

/-- C1: under the write precondition (the top entry's transaction tag, if
any, is at most the counter value), `set` overwrites the top entry's value
in place exactly when the top entry is tagged `Transaction(s.val)`; in
every other case (empty history, top `Committed`, or top `Transaction(m)`
with `m < s.val`) it pushes a new entry tagged `Transaction(s.val)`. -/
theorem set_top_transaction_replaces_else_pushes {V : Type}
    (h : History V) (s : States) (v : V)
    (hpre : h.set_allowed s = true) :
    (h.entries.getLast?.map HistoricalValue.index
        = some (State.Transaction s.val) →
      (h.set s v).entries
        = h.entries.dropLast ++ [⟨v, State.Transaction s.val⟩])
    ∧ (h.entries.getLast?.map HistoricalValue.index
        ≠ some (State.Transaction s.val) →
      (h.set s v).entries
        = h.entries ++ [⟨v, State.Transaction s.val⟩]) := by
  obtain ⟨l⟩ := h
  rcases l.eq_nil_or_concat' with rfl | ⟨l', e, rfl⟩
  · exact ⟨by simp, fun _ => by simp [set_nil]⟩
  · rw [set_concat]
    by_cases hc : e.index.transaction_index = some s.val
    · have he : e.index = State.Transaction s.val :=
        transaction_index_eq_some.mp hc
      simp [hc, he, List.getLast?_concat, List.dropLast_concat,
        State.transaction_index]
    · have he : e.index ≠ State.Transaction s.val := fun hh =>
        hc (transaction_index_eq_some.mpr hh)
      simp [hc, List.getLast?_concat]
      intro hh
      exact absurd hh he

theorem set_top_transaction_replaces_else_pushes_witness :
    ((History.mk [⟨(1 : Nat), State.Transaction 0⟩]).set ⟨0⟩ 2).entries
        = [⟨2, State.Transaction 0⟩]
    ∧ ((History.mk [⟨(1 : Nat), State.Committed⟩]).set ⟨0⟩ 2).entries
        = [⟨1, State.Committed⟩, ⟨2, State.Transaction 0⟩] :=
  ⟨(set_top_transaction_replaces_else_pushes
      (History.mk [⟨(1 : Nat), State.Transaction 0⟩]) ⟨0⟩ 2 rfl).1 rfl,
   (set_top_transaction_replaces_else_pushes
      (History.mk [⟨(1 : Nat), State.Committed⟩]) ⟨0⟩ 2 rfl).2 (by decide)⟩

/-- C5: the four closing operations on the counter are the identical
function: each maps `n + 1` to `n` and `0` to `0`, so any two of them
applied to equal counters yield equal counters. -/
theorem closing_ops_identical :
    (∀ s : States, s.discard_prospective = s.commit_prospective
      ∧ s.commit_prospective = s.discard_transaction
      ∧ s.discard_transaction = s.commit_transaction)
    ∧ (∀ n : Nat, (States.mk (n + 1)).discard_prospective = ⟨n⟩
        ∧ (States.mk (n + 1)).commit_prospective = ⟨n⟩
        ∧ (States.mk (n + 1)).discard_transaction = ⟨n⟩
        ∧ (States.mk (n + 1)).commit_transaction = ⟨n⟩)
    ∧ ((States.mk 0).discard_prospective = ⟨0⟩
        ∧ (States.mk 0).commit_prospective = ⟨0⟩
        ∧ (States.mk 0).discard_transaction = ⟨0⟩
        ∧ (States.mk 0).commit_transaction = ⟨0⟩) := by
  refine ⟨fun s => ⟨rfl, rfl, rfl⟩, fun n => ?_, by decide⟩
  simp [States.discard_prospective, States.commit_prospective,
    States.discard_transaction, States.commit_transaction]

/-- C6: under the write precondition, `set s v` immediately followed by
`get` returns `some v`. -/
theorem set_then_get {V : Type} (h : History V) (s : States) (v : V)
    (hpre : h.set_allowed s = true) :
    (h.set s v).get = some v := by
  obtain ⟨l⟩ := h
  rcases l.eq_nil_or_concat' with rfl | ⟨l', e, rfl⟩
  · simp [set_nil, History.get]
  · rw [set_concat]
    by_cases hc : e.index.transaction_index = some s.val <;>
      simp [hc, History.get, List.getLast?_concat]

theorem set_then_get_witness :
    ((History.default Nat).set ⟨0⟩ 5).get = some 5 :=
  set_then_get (History.default Nat) ⟨0⟩ 5 rfl

/-- C7: under the write precondition, writing the same value at the same
depth twice coalesces: the second `set` returns the history unchanged, so
the entry count grows by at most one across both writes. -/
theorem set_same_value_same_depth_coalesces {V : Type}
    (h : History V) (s : States) (v : V)
    (hpre : h.set_allowed s = true) :
    (h.set s v).set s v = h.set s v
    ∧ ((h.set s v).set s v).entries.length = (h.set s v).entries.length
    ∧ (h.set s v).entries.length ≤ h.entries.length + 1 := by
  obtain ⟨l⟩ := h
  have hmain : ∀ (l : List (HistoricalValue V)),
      ((History.mk l).set s v).set s v = (History.mk l).set s v := by
    intro l
    rcases l.eq_nil_or_concat' with rfl | ⟨l', e, rfl⟩
    · rw [set_nil]
      have := set_concat ([] : List (HistoricalValue V))
        ⟨v, State.Transaction s.val⟩ s v
      simp [State.transaction_index] at this
      simpa using this
    · rw [set_concat]
      by_cases hc : e.index.transaction_index = some s.val
      · simp only [hc, if_pos]
        rw [set_concat]
        simp [hc]
      · simp only [hc, if_neg, reduceIte]
        rw [set_concat]
        simp [State.transaction_index]
  refine ⟨hmain l, by rw [hmain l], ?_⟩
  rcases l.eq_nil_or_concat' with rfl | ⟨l', e, rfl⟩
  · simp [set_nil]
  · rw [set_concat]
    by_cases hc : e.index.transaction_index = some s.val <;> simp [hc]

theorem set_same_value_same_depth_coalesces_witness :
    ((History.mk [⟨(1 : Nat), State.Committed⟩]).set ⟨0⟩ 2).set ⟨0⟩ 2
        = (History.mk [⟨(1 : Nat), State.Committed⟩]).set ⟨0⟩ 2
    ∧ (((History.mk [⟨(1 : Nat), State.Committed⟩]).set ⟨0⟩ 2).set ⟨0⟩
          2).entries.length
        = ((History.mk [⟨(1 : Nat), State.Committed⟩]).set ⟨0⟩
            2).entries.length
    ∧ ((History.mk [⟨(1 : Nat), State.Committed⟩]).set ⟨0⟩
          2).entries.length
        ≤ (History.mk [⟨(1 : Nat), State.Committed⟩]).entries.length + 1 :=
  set_same_value_same_depth_coalesces
    (History.mk [⟨(1 : Nat), State.Committed⟩]) ⟨0⟩ 2 rfl

/-- C9: frame property of `set`: every entry strictly below the top is
unchanged (the first `length - 1` entries of the result are exactly the
input minus its last entry), no entry is removed, and the entry count
grows by at most one. -/
theorem set_frame {V : Type} (h : History V) (s : States) (v : V) :
    (h.set s v).entries.take (h.entries.length - 1) = h.entries.dropLast
    ∧ h.entries.length ≤ (h.set s v).entries.length
    ∧ (h.set s v).entries.length ≤ h.entries.length + 1 := by
  obtain ⟨l⟩ := h
  rcases l.eq_nil_or_concat' with rfl | ⟨l', e, rfl⟩
  · simp [set_nil]
  · rw [set_concat]
    by_cases hc : e.index.transaction_index = some s.val <;>
      simp [hc, List.dropLast_concat, List.take_append_of_le_length]

theorem runOps_counts (ops : List StatesOp) : ∀ s : States,
    (runOps ops s).val + effectiveCloses ops s = s.val + countOpens ops := by
  induction ops with
  | nil => intro s; rfl
  | cons op rest ih =>
      intro s
      cases op with
      | start =>
          have hr := ih (StatesOp.start.apply s)
          simp only [runOps, effectiveCloses, countOpens]
          simp only [StatesOp.apply, States.start_transaction] at hr ⊢
          omega
      | discard =>
          have hr := ih (StatesOp.discard.apply s)
          simp only [runOps, effectiveCloses, countOpens]
          simp only [StatesOp.apply, States.discard_transaction] at hr ⊢
          by_cases hs : s.val > 0 <;> simp [hs] at hr ⊢ <;> omega
      | commit =>
          have hr := ih (StatesOp.commit.apply s)
          simp only [runOps, effectiveCloses, countOpens]
          simp only [StatesOp.apply, States.commit_transaction] at hr ⊢
          by_cases hs : s.val > 0 <;> simp [hs] at hr ⊢ <;> omega

/-- C2: over any sequence of `start_transaction` / `discard_transaction` /
`commit_transaction` calls starting from the default counter (depth 0),
the final depth equals the number of opens minus the number of closes that
found the depth positive; a closing call at depth 0 leaves the counter
unchanged.  Depth is a `Nat` here because the Rust decrement is guarded by
`> 0`, mirrored literally, so it can never go negative. -/
theorem depth_equals_opens_minus_effective_closes (ops : List StatesOp) :
    (runOps ops States.default).val + effectiveCloses ops States.default
        = countOpens ops
    ∧ (runOps ops States.default).val
        = countOpens ops - effectiveCloses ops States.default
    ∧ States.default.discard_transaction = States.default
    ∧ States.default.commit_transaction = States.default := by
  have hr := runOps_counts ops States.default
  have h0 : States.default.val = 0 := rfl
  rw [h0] at hr
  exact ⟨by omega, by omega, rfl, rfl⟩

/-- C3: `into_committed` returns `some v` exactly when the bottom entry
(index 0) exists and is `⟨v, Committed⟩`, no matter what sits above it; it
returns `none` when the bottom entry carries a `Transaction` tag or the
history is empty, and in particular a single `set` at depth 0 on an empty
history yields a cell whose `into_committed` is `none`. -/
theorem into_committed_bottom_committed_only {V : Type} (h : History V)
    (a : V) :
    (∀ v : V, h.into_committed = some v
        ↔ h.entries.head? = some ⟨v, State.Committed⟩)
    ∧ (∀ (v : V) (m : Nat),
        h.entries.head? = some ⟨v, State.Transaction m⟩ →
          h.into_committed = none)
    ∧ (h.entries = [] → h.into_committed = none)
    ∧ ((History.default V).set ⟨0⟩ a).into_committed = none := by
  obtain ⟨l⟩ := h
  refine ⟨?_, ?_, ?_, rfl⟩
  · intro v
    cases l with
    | nil => simp [History.into_committed]
    | cons e t =>
        obtain ⟨v0, st⟩ := e
        cases st <;>
          simp [History.into_committed, take_one_getLast]
  · intro v m hbot
    cases l with
    | nil => simp at hbot
    | cons e t =>
        simp at hbot
        rw [hbot]
        simp [History.into_committed, take_one_getLast]
  · intro hnil
    subst hnil
    rfl

theorem into_committed_bottom_committed_only_witness :
    (History.mk [⟨(3 : Nat), State.Committed⟩,
        ⟨4, State.Transaction 1⟩]).into_committed = some 3
    ∧ (History.mk [⟨(5 : Nat), State.Transaction 0⟩]).into_committed
        = none :=
  ⟨((into_committed_bottom_committed_only
      (History.mk [⟨(3 : Nat), State.Committed⟩, ⟨4, State.Transaction 1⟩])
      7).1 3).mpr rfl,
   (into_committed_bottom_committed_only
      (History.mk [⟨(5 : Nat), State.Transaction 0⟩]) 7).2.1 5 0 rfl⟩

/-- C8: in a debug build, `set` on a history whose top entry is tagged
`Transaction(m)` with `m > s.val` hits the `debug_assert!` (modelled by
`set_checked` returning `none`); under the precondition the assertion
never fires and `set_checked` returns the ordinary `set` result. -/
theorem set_checked_asserts_iff_unsynchronized {V : Type}
    (h : History V) (s : States) (v : V) :
    (∀ (e : HistoricalValue V) (m : Nat), h.entries.getLast? = some e →
        e.index = State.Transaction m → s.val < m →
          h.set_checked s v = none)
    ∧ (h.set_allowed s = true → h.set_checked s v = some (h.set s v)) := by
  constructor
  · intro e m hlast hidx hlt
    have hfalse : h.set_allowed s = false := by
      unfold History.set_allowed
      rw [hlast]
      simp [hidx, State.transaction_index]
      omega
    simp [History.set_checked, hfalse]
  · intro hall
    simp [History.set_checked, hall]

theorem set_checked_asserts_iff_unsynchronized_witness :
    (History.mk [⟨(5 : Nat), State.Transaction 2⟩]).set_checked ⟨1⟩ 0
        = none
    ∧ (History.mk [⟨(5 : Nat), State.Transaction 1⟩]).set_checked ⟨1⟩ 0
        = some ((History.mk [⟨(5 : Nat), State.Transaction 1⟩]).set ⟨1⟩ 0) :=
  ⟨(set_checked_asserts_iff_unsynchronized
      (History.mk [⟨(5 : Nat), State.Transaction 2⟩]) ⟨1⟩ 0).1
      ⟨5, State.Transaction 2⟩ 2 rfl rfl (by decide),
   (set_checked_asserts_iff_unsynchronized
      (History.mk [⟨(5 : Nat), State.Transaction 1⟩]) ⟨1⟩ 0).2 rfl⟩

theorem head_committed_preserved {V : Type} (h : History V) (c : V)
    (s : States) (v : V)
    (hbot : h.entries.head? = some ⟨c, State.Committed⟩) :
    (h.set s v).entries.head? = some ⟨c, State.Committed⟩ := by
  obtain ⟨l⟩ := h
  rcases l.eq_nil_or_concat' with rfl | ⟨l', e, rfl⟩
  · simp at hbot
  · rw [set_concat]
    by_cases hc : e.index.transaction_index = some s.val
    · simp only [hc, reduceIte]
      cases l' with
      | nil =>
          obtain ⟨ev, est⟩ := e
          simp at hbot
          obtain ⟨rfl, rfl⟩ := hbot
          simp [State.transaction_index] at hc
      | cons a t => simpa using hbot
    · simp only [hc, reduceIte]
      simpa using hbot

/-- C10: `set` never overwrites or removes a `Committed` entry: when the
top entry is `Committed` it always pushes a new transaction-tagged entry
(even at depth 0), and a `Committed` entry at index 0 survives, value
intact, every sequence of `set` calls. -/
theorem set_never_touches_committed {V : Type} (h : History V) (c : V)
    (hbot : h.entries.head? = some ⟨c, State.Committed⟩) :
    (∀ (s : States) (v : V),
        h.entries.getLast?.map HistoricalValue.index
            = some State.Committed →
          (h.set s v).entries
            = h.entries ++ [⟨v, State.Transaction s.val⟩])
    ∧ (∀ writes : List (States × V),
        (writes.foldl (fun acc p => acc.set p.1 p.2) h).entries.head?
          = some ⟨c, State.Committed⟩) := by
  constructor
  · intro s v htop
    obtain ⟨l⟩ := h
    rcases l.eq_nil_or_concat' with rfl | ⟨l', e, rfl⟩
    · simp at htop
    · rw [set_concat]
      have he : e.index = State.Committed := by
        simpa [List.getLast?_concat] using htop
      simp [he, State.transaction_index]
  · have hgen : ∀ (writes : List (States × V)) (g : History V),
        g.entries.head? = some ⟨c, State.Committed⟩ →
        (writes.foldl (fun acc p => acc.set p.1 p.2) g).entries.head?
          = some ⟨c, State.Committed⟩ := by
      intro writes
      induction writes with
      | nil => intro g hg; exact hg
      | cons p rest ih =>
          intro g hg
          exact ih (g.set p.1 p.2)
            (head_committed_preserved g c p.1 p.2 hg)
    exact fun writes => hgen writes h hbot

theorem set_never_touches_committed_witness :
    ((History.mk [⟨(1 : Nat), State.Committed⟩]).set ⟨0⟩ 2).entries
        = [⟨(1 : Nat), State.Committed⟩] ++ [⟨2, State.Transaction 0⟩]
    ∧ ([((⟨0⟩ : States), (2 : Nat)), ((⟨1⟩ : States), 3)].foldl
          (fun acc p => acc.set p.1 p.2)
          (History.mk [⟨(1 : Nat), State.Committed⟩])).entries.head?
        = some ⟨1, State.Committed⟩ :=
  ⟨(set_never_touches_committed
      (History.mk [⟨(1 : Nat), State.Committed⟩]) 1 rfl).1 ⟨0⟩ 2 rfl,
   (set_never_touches_committed
      (History.mk [⟨(1 : Nat), State.Committed⟩]) 1 rfl).2
      [((⟨0⟩ : States), (2 : Nat)), ((⟨1⟩ : States), 3)]⟩

/-- C4: for a history that was synchronized at depth 0, the sequence
`start_transaction(); set(counter, v); discard_transaction();
apply_discard_transaction(counter)` restores the history to its state
before the `set`, and `get` afterwards returns whatever was visible
before the transaction opened (or nothing for an empty history). -/
theorem discard_transaction_restores_prior_state {V : Type}
    (h : History V) (v : V)
    (hpre : h.set_allowed States.default = true) :
    (h.set States.default.start_transaction v).apply_discard_transaction
        (States.default.start_transaction.discard_transaction) = h
    ∧ ((h.set States.default.start_transaction v).apply_discard_transaction
        (States.default.start_transaction.discard_transaction)).get
      = h.get := by
  have hs1 : States.default.start_transaction = States.mk 1 := rfl
  have hs2 : States.default.start_transaction.discard_transaction
      = States.mk 0 := by
    simp [States.default, States.start_transaction, States.discard_transaction]
  suffices hmain :
      (h.set (States.mk 1) v).apply_discard_transaction (States.mk 0) = h by
    rw [hs2, hs1, hmain]
    exact ⟨rfl, rfl⟩
  obtain ⟨l⟩ := h
  rcases l.eq_nil_or_concat' with rfl | ⟨l', e, rfl⟩
  · rfl
  · have hle : e.index.transaction_index.getD 0 ≤ 0 := by
      unfold History.set_allowed at hpre
      rw [List.getLast?_concat] at hpre
      simpa [States.default] using hpre
    rw [set_concat]
    have hc : ¬ e.index.transaction_index = some ((States.mk 1).val) := by
      cases hidx : e.index with
      | Committed => simp [State.transaction_index]
      | Transaction m =>
          rw [hidx] at hle
          simp [State.transaction_index] at hle ⊢
          omega
    rw [if_neg hc]
    unfold History.apply_discard_transaction
    cases hidx : e.index with
    | Committed =>
        simp [List.dropWhile_cons, hidx]
    | Transaction m =>
        rw [hidx] at hle
        simp [State.transaction_index] at hle
        subst hle
        simp [List.dropWhile_cons, hidx]

theorem discard_transaction_restores_prior_state_witness :
    ((History.mk [⟨(1 : Nat), State.Committed⟩]).set
          States.default.start_transaction 7).apply_discard_transaction
        (States.default.start_transaction.discard_transaction)
      = History.mk [⟨(1 : Nat), State.Committed⟩]
    ∧ (((History.mk [⟨(1 : Nat), State.Committed⟩]).set
          States.default.start_transaction 7).apply_discard_transaction
        (States.default.start_transaction.discard_transaction)).get
      = (History.mk [⟨(1 : Nat), State.Committed⟩]).get :=
  discard_transaction_restores_prior_state
    (History.mk [⟨(1 : Nat), State.Committed⟩]) 7 rfl

end HistoricalData
